import Mathlib

/-!
Shallow embedding of the mrtoct-pytorch repository: the checkpoint
bookkeeping and training loop of `train.py`, and the NIFTI dataset of
`mrtoct/dataset.py`.  Python strings are modelled as `List Char`
(Python compares strings by code points, as `Char` ordering does).
-/

/-- Decimal digit characters, as produced by Python decimal formatting. -/
def digitChar : Nat → Char
  | 0 => '0'
  | 1 => '1'
  | 2 => '2'
  | 3 => '3'
  | 4 => '4'
  | 5 => '5'
  | 6 => '6'
  | 7 => '7'
  | 8 => '8'
  | 9 => '9'
  | _ => '?'

/-- Numeric value of a decimal digit character (0 on non-digits). -/
def digitVal : Char → Nat
  | '1' => 1
  | '2' => 2
  | '3' => 3
  | '4' => 4
  | '5' => 5
  | '6' => 6
  | '7' => 7
  | '8' => 8
  | '9' => 9
  | _ => 0

/-- The character is one of the ten decimal digit characters. -/
def IsDig (c : Char) : Prop := ∃ d, d < 10 ∧ c = digitChar d

/-- Value of a most-significant-first list of decimal digit characters. -/
def valDigits : List Char → Nat
  | [] => 0
  | c :: cs => digitVal c * 10 ^ cs.length + valDigits cs

/-- Decimal rendering of a natural number, with explicit fuel so that the
kernel can evaluate it. -/
def natToDigitsF : Nat → Nat → List Char
  | 0, _ => []
  | fuel + 1, n =>
    if n < 10 then [digitChar n]
    else natToDigitsF fuel (n / 10) ++ [digitChar (n % 10)]

/-- Decimal rendering of a natural number, as Python `str` does for `Nat`. -/
def natToDigits (n : Nat) : List Char := natToDigitsF (n + 1) n

/-- Python format `f'{n:05d}'` for a natural `n`: the decimal rendering,
left-padded with zeros to at least five characters. -/
def pad5 (n : Nat) : List Char :=
  List.replicate (5 - (natToDigits n).length) '0' ++ natToDigits n

/-- Lexicographic (code-point) comparison of Python strings: `a <= b`. -/
def lexLe : List Char → List Char → Bool
  | [], _ => true
  | _ :: _, [] => false
  | a :: as, b :: bs =>
    if a < b then true else if b < a then false else lexLe as bs

/-- The ordering relation used by Python `list.sort()` on strings. -/
def pyStrLe (a b : List Char) : Prop := lexLe a b = true

instance : DecidableRel pyStrLe := fun a b => by
  unfold pyStrLe; infer_instance

/-- Python `list.sort()` on a list of strings: a stable sort by `pyStrLe`. -/
def pySort (l : List (List Char)) : List (List Char) := l.insertionSort pyStrLe

/-- Python `s.endswith(suf)` on strings. -/
def pyEndsWith (suf s : List Char) : Bool := List.isSuffixOf suf s

/-- Python `str.split(sep)` with a one-character separator:
`'a-b'.split('-') = ['a','b']`, `''.split('-') = ['']`. -/
def pySplit (sep : Char) : List Char → List (List Char)
  | [] => [[]]
  | c :: cs =>
    if c = sep then [] :: pySplit sep cs
    else
      match pySplit sep cs with
      | [] => [[c]]
      | t :: ts => (c :: t) :: ts

/-- Whitespace stripping done by Python `int(str)` before parsing. -/
def pyStrip (s : List Char) : List Char :=
  ((s.dropWhile Char.isWhitespace).reverse.dropWhile Char.isWhitespace).reverse

/-- Python `int(s)` on a string: strips whitespace, allows one sign, then
requires a nonempty run of decimal digits; anything else raises
`ValueError`, modelled as `none`.  (Underscore digit separators, accepted
by CPython between digits, never occur in the strings of this program.) -/
def pyInt (s : List Char) : Option Int :=
  let t := pyStrip s
  let sign : Int := if t.head? = some '-' then -1 else 1
  let digits := if t.head? = some '+' ∨ t.head? = some '-' then t.tail else t
  if digits ≠ [] ∧ digits.all Char.isDigit then some (sign * valDigits digits)
  else none

/-- `train.py` line 21: the basename part of
`fmt_fname(prefix, ext, step, path)`, i.e. the Python f-string
`f'{prefix}-{step:05d}.{ext}'` (the directory join does not matter for
the claims, which are about directory listings of basenames). -/
def fmtBasename (pre ext : List Char) (step : Nat) : List Char :=
  pre ++ ('-' :: pad5 step) ++ ('.' :: ext)

/-- `train.py` lines 25-27: `save_model` writes the state dict to
`fmt_fname('model', '.pt', step, checkpoint_path)`; this is the basename
of the file it creates. -/
def saveModelBasename (step : Nat) : List Char :=
  fmtBasename "model".toList ".pt".toList step

/-- `train.py` line 41: the step parsed from the sorted-first checkpoint
filename, `int(chkpts[0][:-3].split('-')[1])`.  `[:-3]` is `List.take
(length - 3)`, the `[1]` index and the `int` conversion can both raise,
modelled as `none`. -/
def parseStep (f : List Char) : Option Int :=
  match (pySplit '-' (f.take (f.length - 3))).get? 1 with
  | some seg => pyInt seg
  | none => none

/-- Outcome of `restore_checkpoint`: either a step together with the
basename of the checkpoint that was loaded via `load_state_dict`
(`none` when no file was loaded), or an uncaught exception. -/
inductive RestoreResult where
  | ok (step : Int) (loaded : Option (List Char))
  | error
  deriving DecidableEq

/-- `train.py` lines 36-49: `restore_checkpoint`.  It filters the
directory listing to names ending in `.pt`, sorts, and if nonempty
parses the step from the first name (an exception there propagates,
before any `load_state_dict` call) and loads that first file; on an
empty list it returns step 0 without loading. -/
def restoreCheckpoint (listing : List (List Char)) : RestoreResult :=
  match pySort (listing.filter fun f => pyEndsWith ".pt".toList f) with
  | [] => .ok 0 none
  | f :: _ =>
    match parseStep f with
    | some s => .ok s (some f)
    | none => .error

/-- A well-formed checkpoint basename with a zero-padded five-digit step,
`model-NNNNN.pt`, as described by the specification. -/
def mkName (step : Nat) : List Char :=
  "model-".toList ++ pad5 step ++ ".pt".toList

/-! The training loop of `train.py`, `main` lines 84-106.  One inner
iteration of the `for` loop is modelled as the sequence of effects it
performs; the tensors are symbolic, since the generator network and the
numeric libraries are out of scope of the specification. -/

/-- Symbolic tensor expressions occurring in one training iteration. -/
inductive TensorExpr where
  | inputBatch
  | targetBatch
  | genForward (x : TensorExpr)
  | l1Loss (a b : TensorExpr)
  deriving DecidableEq

/-- Observable effects of one inner iteration of the training loop. -/
inductive TrainEvent where
  | zeroGrad
  | backward (loss : TensorExpr)
  | optStep
  | logLoss (step : Nat)
  | saveImagesFile (fname : List Char)
  | saveModelFile (fname : List Char)
  deriving DecidableEq

/-- `train.py` lines 81, 92, 95: `criterion = L1Loss()`;
`outputs = model(inputs)`; `loss = criterion(outputs, targets)`. -/
def lossExpr : TensorExpr := .l1Loss (.genForward .inputBatch) .targetBatch

/-- `train.py` lines 90-106: the effects of one inner iteration of the
training loop at the current `step`, in program order: `zero_grad`,
`loss.backward()`, `optimizer.step()`, then conditional logging with
`save_results` when `step % log_steps == 0` and `save_model` when
`step % save_steps == 0`. -/
def iterEvents (logSteps saveSteps step : Nat) : List TrainEvent :=
  [.zeroGrad, .backward lossExpr, .optStep]
    ++ (if step % logSteps = 0 then
          [.logLoss step,
           .saveImagesFile (fmtBasename "images".toList ".jpg".toList step)]
        else [])
    ++ (if step % saveSteps = 0 then
          [.saveModelFile (saveModelBasename step)]
        else [])

/-- `train.py` line 106: `step += 1` at the end of every inner iteration. -/
def iterNextStep (step : Nat) : Nat := step + 1

/-- `train.py` line 84: the guard of the outer `while True:` loop; the
loop body contains no `break` or `return`. -/
def loopGuard : Bool := true

/-- The value of `step` after `n` inner iterations of the training loop,
starting from the restored step `s0`. -/
def runStep (s0 : Nat) (n : Nat) : Nat := iterNextStep^[n] s0

/-- An event writes a model checkpoint file. -/
def isSaveModel : TrainEvent → Bool
  | .saveModelFile _ => true
  | _ => false

/-- An event writes a sample-images file. -/
def isSaveImages : TrainEvent → Bool
  | .saveImagesFile _ => true
  | _ => false

/-- An event is a backward pass. -/
def isBackward : TrainEvent → Bool
  | .backward _ => true
  | _ => false

/-! The dataset module `mrtoct/dataset.py`. -/

/-- `dataset.py` lines 8-9: `is_nifti` accepts filenames ending in
`.nii` or `.nii.gz`. -/
def is_nifti (f : List Char) : Bool :=
  pyEndsWith ".nii".toList f || pyEndsWith ".nii.gz".toList f

/-- Python `os.path.join(root, f)` for POSIX paths. -/
def pathJoin (root f : List Char) : List Char :=
  if f.head? = some '/' then f
  else if root = [] then f
  else if root.getLast? = some '/' then root ++ f
  else root ++ ('/' :: f)

/-- `dataset.py` lines 14-18: `NIFTI.__init__` keeps the listing entries
accepted by `is_nifti`, joins them onto `root`, and sorts the resulting
full paths in place. -/
def NIFTI_filenames (root : List Char) (listing : List (List Char)) :
    List (List Char) :=
  pySort ((listing.filter is_nifti).map (pathJoin root))

/-- `dataset.py` lines 32-33: `NIFTI.__len__` is the length of the
stored filename list. -/
def NIFTI_len (root : List Char) (listing : List (List Char)) : Nat :=
  (NIFTI_filenames root listing).length

/-- A three-dimensional array as handled by `NIFTI.__getitem__`:
its shape and an element lookup. -/
structure Vol3 (α : Type) where
  n0 : Nat
  n1 : Nat
  n2 : Nat
  el : Nat → Nat → Nat → α

/-- `np.transpose` on a 3-d array: reverses the axes. -/
def npTranspose {α : Type} (v : Vol3 α) : Vol3 α :=
  ⟨v.n2, v.n1, v.n0, fun i j k => v.el k j i⟩

/-- `np.flip(v, 0)` on a 3-d array: reverses indexing along axis 0. -/
def npFlip0 {α : Type} (v : Vol3 α) : Vol3 α :=
  ⟨v.n0, v.n1, v.n2, fun i j k => v.el (v.n0 - 1 - i) j k⟩

/-- `np.flip(v, 1)` on a 3-d array: reverses indexing along axis 1. -/
def npFlip1 {α : Type} (v : Vol3 α) : Vol3 α :=
  ⟨v.n0, v.n1, v.n2, fun i j k => v.el i (v.n1 - 1 - j) k⟩

/-- `dataset.py` lines 20-30: `NIFTI.__getitem__` on the loaded volume:
transpose, flip axis 0, flip axis 1, then apply the transform if one
was given. -/
def nifti_getitem {α : Type} (volume : Vol3 α)
    (transform : Option (Vol3 α → Vol3 α)) : Vol3 α :=
  match transform with
  | some t => t (npFlip1 (npFlip0 (npTranspose volume)))
  | none => npFlip1 (npFlip0 (npTranspose volume))

/-! The module-level bindings relevant to `train.py` line 13,
`from mrtoct.dataset import HDF5, Combined`. -/

/-- The names bound at the top level of `mrtoct/dataset.py`. -/
def datasetModuleDefs : List String := ["is_nifti", "NIFTI"]

/-- The names `train.py` line 13 requests from `mrtoct.dataset`. -/
def trainDatasetRequest : List String := ["HDF5", "Combined"]

/-- A Python `from m import a, b` succeeds exactly when every requested
name is bound in module `m`; otherwise it raises `ImportError`. -/
def pyFromImportOk (defined requested : List String) : Bool :=
  requested.all fun n => defined.contains n

/-! Arithmetic facts about decimal digit strings. -/

/-- Characters produced by `digitChar` below 10 are digit characters with
the expected properties. -/
theorem isDig_digitChar {d : Nat} (h : d < 10) : IsDig (digitChar d) :=
  ⟨d, h, rfl⟩

/-- The numeric value of `digitChar d` is `d` for `d < 10`. -/
theorem digitVal_digitChar {d : Nat} (h : d < 10) :
    digitVal (digitChar d) = d := by
  interval_cases d <;> rfl

/-- Basic character-level facts about decimal digit characters. -/
theorem isDig_facts {c : Char} (h : IsDig c) :
    digitVal c ≤ 9 ∧ c.isDigit = true ∧ c.isWhitespace = false ∧
      c ≠ '+' ∧ c ≠ '-' ∧ c ≠ '.' := by
  obtain ⟨d, hd, rfl⟩ := h
  interval_cases d <;> exact ⟨by decide, by decide, by decide, by decide,
    by decide, by decide⟩

/-- Character order agrees with numeric value on decimal digits. -/
theorem digitChar_lt_iff {d e : Nat} (hd : d < 10) (he : e < 10) :
    (digitChar d < digitChar e ↔ d < e) := by
  interval_cases d <;> interval_cases e <;> simp_all <;> decide

/-- A digit string of length `k` has value below `10 ^ k`. -/
theorem valDigits_lt {s : List Char} (h : ∀ c ∈ s, IsDig c) :
    valDigits s < 10 ^ s.length := by
  induction s with
  | nil => simp [valDigits]
  | cons c cs ih =>
    have hc : digitVal c ≤ 9 := (isDig_facts (h c (by simp))).1
    have hcs : valDigits cs < 10 ^ cs.length := ih fun x hx => h x (by simp [hx])
    have : digitVal c * 10 ^ cs.length ≤ 9 * 10 ^ cs.length :=
      Nat.mul_le_mul_right _ hc
    simp only [valDigits, List.length_cons, pow_succ]
    omega

/-- Appending one digit multiplies the value by ten and adds the digit. -/
theorem valDigits_append_singleton (s : List Char) (c : Char) :
    valDigits (s ++ [c]) = 10 * valDigits s + digitVal c := by
  induction s with
  | nil => simp [valDigits]
  | cons x xs ih =>
    simp only [List.cons_append, valDigits, List.append_eq, ih,
      List.length_append, List.length_cons, List.length_nil, pow_succ]
    ring

/-- The fuelled decimal rendering consists of digit characters. -/
theorem natToDigitsF_isDig :
    ∀ fuel n, ∀ c ∈ natToDigitsF fuel n, IsDig c := by
  intro fuel
  induction fuel with
  | zero => intro n c hc; simp [natToDigitsF] at hc
  | succ f ih =>
    intro n c hc
    by_cases h : n < 10
    · simp [natToDigitsF, h] at hc
      exact hc ▸ isDig_digitChar h
    · simp [natToDigitsF, h] at hc
      rcases hc with hc | hc
      · exact ih _ c hc
      · exact hc ▸ isDig_digitChar (Nat.mod_lt n (by omega))

/-- With sufficient fuel the decimal rendering has the right value. -/
theorem valDigits_natToDigitsF :
    ∀ fuel n, n < fuel → valDigits (natToDigitsF fuel n) = n := by
  intro fuel
  induction fuel with
  | zero => omega
  | succ f ih =>
    intro n hn
    by_cases h : n < 10
    · simp [natToDigitsF, h, valDigits, digitVal_digitChar h]
    · have hdiv : n / 10 < f := by omega
      simp only [natToDigitsF, h, if_false]
      rw [valDigits_append_singleton, ih _ hdiv,
        digitVal_digitChar (Nat.mod_lt n (by omega))]
      omega

/-- With sufficient fuel, a number below `10 ^ k` renders with at most
`k` digits (for `1 ≤ k`). -/
theorem length_natToDigitsF :
    ∀ fuel n k, n < fuel → n < 10 ^ k → 1 ≤ k →
      (natToDigitsF fuel n).length ≤ k := by
  intro fuel
  induction fuel with
  | zero => omega
  | succ f ih =>
    intro n k hn hk h1
    by_cases h : n < 10
    · simp [natToDigitsF, h]; omega
    · obtain ⟨k, rfl⟩ : ∃ m, k = m + 1 := ⟨k - 1, by omega⟩
      rw [pow_succ, Nat.mul_comm] at hk
      have hdivk : n / 10 < 10 ^ k := Nat.div_lt_of_lt_mul hk
      have h1k : 1 ≤ k := by
        by_contra hc
        have : k = 0 := by omega
        subst this
        simp at hdivk
        omega
      have hdf : n / 10 < f := by omega
      simp only [natToDigitsF, h, if_false, List.length_append,
        List.length_cons, List.length_nil]
      have := ih (n / 10) k hdf hdivk h1k
      omega

/-- `pad5` renders only digit characters. -/
theorem pad5_isDig {n : Nat} : ∀ c ∈ pad5 n, IsDig c := by
  intro c hc
  simp only [pad5, List.mem_append, List.mem_replicate] at hc
  rcases hc with ⟨-, rfl⟩ | hc
  · exact ⟨0, by omega, rfl⟩
  · exact natToDigitsF_isDig _ _ c hc

/-- Leading zeros do not change the value of a digit string. -/
theorem valDigits_replicate_zero (k : Nat) (s : List Char) :
    valDigits (List.replicate k '0' ++ s) = valDigits s := by
  induction k with
  | zero => simp
  | succ m ih => simp [List.replicate_succ, valDigits, ih, digitVal]

/-- The value of `pad5 n` is `n`. -/
theorem valDigits_pad5 (n : Nat) : valDigits (pad5 n) = n := by
  rw [pad5, valDigits_replicate_zero]
  exact valDigits_natToDigitsF _ _ (Nat.lt_succ_self n)

/-- For `n < 100000` the padded rendering has exactly five characters. -/
theorem length_pad5 {n : Nat} (h : n < 100000) : (pad5 n).length = 5 := by
  have hle : (natToDigits n).length ≤ 5 := by
    have : (100000 : Nat) = 10 ^ 5 := by norm_num
    exact length_natToDigitsF _ _ 5 (Nat.lt_succ_self n) (this ▸ h) (by omega)
  simp only [pad5, List.length_append, List.length_replicate]
  omega

/-! Properties of the lexicographic string order used by `list.sort()`. -/

/-- `lexLe` is reflexive. -/
theorem lexLe_refl : ∀ a : List Char, lexLe a a = true := by
  intro a
  induction a with
  | nil => rfl
  | cons c cs ih => simp [lexLe, lt_irrefl, ih]

/-- `lexLe` is transitive. -/
theorem lexLe_trans : ∀ a b c : List Char,
    lexLe a b = true → lexLe b c = true → lexLe a c = true := by
  intro a
  induction a with
  | nil => intro b c _ _; rfl
  | cons x xs ih =>
    intro b c hab hbc
    cases b with
    | nil => simp [lexLe] at hab
    | cons y ys =>
      cases c with
      | nil => simp [lexLe] at hbc
      | cons z zs =>
        simp only [lexLe] at hab hbc ⊢
        rcases lt_trichotomy x y with h1 | h1 | h1 <;>
          rcases lt_trichotomy y z with h2 | h2 | h2
        · rw [if_pos (lt_trans h1 h2)]
        · subst h2; rw [if_pos h1]
        · rw [if_neg (lt_asymm h2), if_pos h2] at hbc
          exact Bool.noConfusion hbc
        · subst h1; rw [if_pos h2]
        · subst h1; subst h2
          rw [if_neg (lt_irrefl x), if_neg (lt_irrefl x)] at hab hbc ⊢
          exact ih ys zs hab hbc
        · subst h1
          rw [if_neg (lt_asymm h2), if_pos h2] at hbc
          exact Bool.noConfusion hbc
        · rw [if_neg (lt_asymm h1), if_pos h1] at hab
          exact Bool.noConfusion hab
        · rw [if_neg (lt_asymm h1), if_pos h1] at hab
          exact Bool.noConfusion hab
        · rw [if_neg (lt_asymm h1), if_pos h1] at hab
          exact Bool.noConfusion hab

/-- `lexLe` is total. -/
theorem lexLe_total : ∀ a b : List Char,
    lexLe a b = true ∨ lexLe b a = true := by
  intro a
  induction a with
  | nil => intro b; exact Or.inl rfl
  | cons x xs ih =>
    intro b
    cases b with
    | nil => exact Or.inr rfl
    | cons y ys =>
      simp only [lexLe]
      rcases lt_trichotomy x y with h | h | h
      · left; rw [if_pos h]
      · subst h
        simp only [if_neg (lt_irrefl x)]
        exact ih ys
      · right; rw [if_pos h]

instance : IsTrans (List Char) pyStrLe := ⟨lexLe_trans⟩

instance : IsTotal (List Char) pyStrLe := ⟨lexLe_total⟩

/-- A common prefix does not affect the comparison. -/
theorem lexLe_append_left :
    ∀ p x y : List Char, lexLe (p ++ x) (p ++ y) = lexLe x y := by
  intro p x y
  induction p with
  | nil => rfl
  | cons c cs ih => simp [lexLe, lt_irrefl, ih]

/-- Character order agrees with numeric value on digit characters. -/
theorem isDig_lt_iff {c d : Char} (hc : IsDig c) (hd : IsDig d) :
    c < d ↔ digitVal c < digitVal d := by
  obtain ⟨a, ha, rfl⟩ := hc
  obtain ⟨b, hb, rfl⟩ := hd
  rw [digitVal_digitChar ha, digitVal_digitChar hb]
  exact digitChar_lt_iff ha hb

/-- A smaller leading digit forces a smaller value, for equal lengths. -/
theorem valDigits_lt_of_head_lt {a b : Char} {as bs : List Char}
    (ha : ∀ c ∈ as, IsDig c) (hlen : as.length = bs.length)
    (h : digitVal a < digitVal b) :
    valDigits (a :: as) < valDigits (b :: bs) := by
  simp only [valDigits, hlen]
  have h1 : valDigits as < 10 ^ as.length := valDigits_lt ha
  rw [hlen] at h1
  calc digitVal a * 10 ^ bs.length + valDigits as
      < digitVal a * 10 ^ bs.length + 10 ^ bs.length := by omega
    _ = (digitVal a + 1) * 10 ^ bs.length := by ring
    _ ≤ digitVal b * 10 ^ bs.length := Nat.mul_le_mul_right _ (by omega)
    _ ≤ digitVal b * 10 ^ bs.length + valDigits bs := Nat.le_add_right _ _

/-- For equal-length digit strings followed by a common tail, the
lexicographic comparison is the numeric comparison of the digit parts. -/
theorem lexLe_digits_append :
    ∀ xs ys s : List Char, xs.length = ys.length →
      (∀ c ∈ xs, IsDig c) → (∀ c ∈ ys, IsDig c) →
      (lexLe (xs ++ s) (ys ++ s) = true ↔ valDigits xs ≤ valDigits ys) := by
  intro xs
  induction xs with
  | nil =>
    intro ys s hlen _ _
    have : ys = [] := List.length_eq_zero.mp hlen.symm
    subst this
    simp [lexLe_refl s, valDigits]
  | cons a as ih =>
    intro ys s hlen hxs hys
    cases ys with
    | nil => simp at hlen
    | cons b bs =>
      have hlen' : as.length = bs.length := by simpa using hlen
      have hda : IsDig a := hxs a (by simp)
      have hdb : IsDig b := hys b (by simp)
      have has : ∀ c ∈ as, IsDig c := fun c hc => hxs c (by simp [hc])
      have hbs : ∀ c ∈ bs, IsDig c := fun c hc => hys c (by simp [hc])
      simp only [List.cons_append, lexLe, List.append_eq]
      rcases lt_trichotomy a b with h | h | h
      · rw [if_pos h]
        have hv : digitVal a < digitVal b := (isDig_lt_iff hda hdb).1 h
        exact ⟨fun _ => le_of_lt (valDigits_lt_of_head_lt has hlen' hv),
          fun _ => rfl⟩
      · subst h
        rw [if_neg (lt_irrefl a), if_neg (lt_irrefl a)]
        rw [ih bs s hlen' has hbs]
        simp only [valDigits, hlen']
        exact (add_le_add_iff_left _).symm
      · rw [if_neg (lt_asymm h), if_pos h]
        have hv : digitVal b < digitVal a := (isDig_lt_iff hdb hda).1 h
        have hstrict : valDigits (b :: bs) < valDigits (a :: as) :=
          valDigits_lt_of_head_lt hbs hlen'.symm hv
        simp only [Bool.false_eq_true, false_iff]
        omega

/-- On well-formed checkpoint names, the Python string order is exactly
the order of the step numbers. -/
theorem pyStrLe_mkName {a b : Nat} (ha : a < 100000) (hb : b < 100000) :
    pyStrLe (mkName a) (mkName b) ↔ a ≤ b := by
  unfold pyStrLe mkName
  rw [List.append_assoc, List.append_assoc, lexLe_append_left]
  rw [lexLe_digits_append _ _ _ (by rw [length_pad5 ha, length_pad5 hb])
    pad5_isDig pad5_isDig]
  rw [valDigits_pad5, valDigits_pad5]

/-! Evaluation of the step parser on well-formed names. -/

/-- A string can always be recognised as ending in its own suffix. -/
theorem pyEndsWith_append (s x : List Char) : pyEndsWith s (x ++ s) = true := by
  unfold pyEndsWith
  rw [List.isSuffixOf_iff_suffix]
  exact List.suffix_append x s

/-- Splitting a string that does not contain the separator. -/
theorem pySplit_no_sep {sep : Char} :
    ∀ {s : List Char}, (∀ c ∈ s, c ≠ sep) → pySplit sep s = [s] := by
  intro s
  induction s with
  | nil => intro _; rfl
  | cons c cs ih =>
    intro h
    have hc : c ≠ sep := h c (by simp)
    simp only [pySplit, if_neg hc]
    rw [ih fun x hx => h x (by simp [hx])]

/-- Splitting past a separator-free chunk peels off that chunk. -/
theorem pySplit_append_sep {sep : Char} :
    ∀ (p r : List Char), (∀ c ∈ p, c ≠ sep) →
      pySplit sep (p ++ sep :: r) = p :: pySplit sep r := by
  intro p
  induction p with
  | nil => intro r _; simp [pySplit]
  | cons c cs ih =>
    intro r h
    have hc : c ≠ sep := h c (by simp)
    simp only [List.cons_append, pySplit, if_neg hc, List.append_eq]
    rw [ih r fun x hx => h x (by simp [hx])]

/-- `dropWhile` is the identity when no element satisfies the test. -/
theorem dropWhile_eq_self_of {p : Char → Bool} {s : List Char}
    (h : ∀ c ∈ s, p c = false) : s.dropWhile p = s := by
  cases s with
  | nil => rfl
  | cons c cs => simp [List.dropWhile_cons, h c (by simp)]

/-- Stripping does nothing to a whitespace-free string. -/
theorem pyStrip_of_no_ws {s : List Char}
    (h : ∀ c ∈ s, c.isWhitespace = false) : pyStrip s = s := by
  unfold pyStrip
  rw [dropWhile_eq_self_of h,
    dropWhile_eq_self_of fun c hc => h c (List.mem_reverse.mp hc),
    List.reverse_reverse]

/-- Python `int` succeeds on a nonempty all-digit string and returns its
decimal value. -/
theorem pyInt_digits {s : List Char} (hne : s ≠ [])
    (h : ∀ c ∈ s, IsDig c) : pyInt s = some (valDigits s : Int) := by
  have hs : pyStrip s = s :=
    pyStrip_of_no_ws fun c hc => (isDig_facts (h c hc)).2.2.1
  cases s with
  | nil => exact absurd rfl hne
  | cons c cs =>
    have hc := isDig_facts (h c (by simp))
    have hall : (c :: cs).all Char.isDigit = true := by
      rw [List.all_eq_true]
      intro x hx
      exact (isDig_facts (h x hx)).2.1
    simp [pyInt, hs, hc.2.2.2.1, hc.2.2.2.2.1, hall]

/-- The step parser recovers the step from a well-formed name. -/
theorem parseStep_mkName {m : Nat} (hm : m < 100000) :
    parseStep (mkName m) = some (m : Int) := by
  have hlen5 : (pad5 m).length = 5 := length_pad5 hm
  have hsplit : mkName m = ("model".toList ++ '-' :: pad5 m) ++ ".pt".toList :=
    rfl
  have h11 : ("model".toList ++ '-' :: pad5 m).length = 11 := by
    simp [hlen5]
  have hlen14 : (mkName m).length = 14 := by
    rw [hsplit, List.length_append, h11]
    rfl
  have hnil : pad5 m ≠ [] := by
    intro hx
    rw [hx] at hlen5
    simp at hlen5
  unfold parseStep
  rw [hlen14, (by norm_num : (14 : Nat) - 3 = 11), hsplit, ← h11,
    List.take_left]
  rw [pySplit_append_sep _ _ (by decide),
    pySplit_no_sep fun c hc => (isDig_facts (pad5_isDig c hc)).2.2.2.2.1]
  simp only [List.get?]
  rw [pyInt_digits hnil pad5_isDig, valDigits_pad5]

/-! Claim theorems for the checkpoint lifecycle. -/

/-- C2: `restore_checkpoint` keeps the filenames ending in `.pt`, sorts
them lexicographically and loads state and step from the first of the
sorted list; on a directory of well-formed checkpoint files with
distinct zero-padded five-digit step numbers, the checkpoint with the
smallest step number is the one restored. -/
theorem restore_loads_smallest_step (steps : List Nat) (hne : steps ≠ [])
    (hlt : ∀ s ∈ steps, s < 100000) (hnd : steps.Pairwise (· ≠ ·)) :
    ∃ m, m ∈ steps ∧ (∀ s ∈ steps, m ≤ s) ∧
      restoreCheckpoint (steps.map mkName) =
        .ok (m : Int) (some (mkName m)) := by
  have hfilter : (steps.map mkName).filter
      (fun f => pyEndsWith ".pt".toList f) = steps.map mkName := by
    rw [List.filter_eq_self]
    intro f hf
    obtain ⟨s, hs, rfl⟩ := List.mem_map.mp hf
    exact pyEndsWith_append ".pt".toList ("model-".toList ++ pad5 s)
  have hperm : List.Perm (pySort (steps.map mkName)) (steps.map mkName) :=
    List.perm_insertionSort pyStrLe _
  have hsorted : List.Sorted pyStrLe (pySort (steps.map mkName)) :=
    List.sorted_insertionSort pyStrLe _
  have hlen : (pySort (steps.map mkName)).length = steps.length := by
    rw [hperm.length_eq, List.length_map]
  cases hsort : pySort (steps.map mkName) with
  | nil =>
    rw [hsort] at hlen
    exact absurd (List.length_eq_zero.mp (by simpa using hlen.symm)) hne
  | cons f t =>
    have hf_mem : f ∈ steps.map mkName := by
      refine hperm.mem_iff.mp ?_
      rw [hsort]
      exact List.mem_cons_self f t
    obtain ⟨m, hm, rfl⟩ := List.mem_map.mp hf_mem
    refine ⟨m, hm, ?_, ?_⟩
    · intro s hs
      have hsmem : mkName s ∈ pySort (steps.map mkName) :=
        hperm.mem_iff.mpr (List.mem_map_of_mem mkName hs)
      rw [hsort] at hsmem
      rcases List.mem_cons.mp hsmem with heq | hmem
      · have hle : pyStrLe (mkName m) (mkName s) := by
          unfold pyStrLe
          rw [heq]
          exact lexLe_refl _
        exact (pyStrLe_mkName (hlt m hm) (hlt s hs)).1 hle
      · have hle : pyStrLe (mkName m) (mkName s) :=
          List.rel_of_sorted_cons (hsort ▸ hsorted) _ hmem
        exact (pyStrLe_mkName (hlt m hm) (hlt s hs)).1 hle
    · simp only [restoreCheckpoint, hfilter, hsort,
        parseStep_mkName (hlt m hm)]

/-- C2 witness: on the directory holding checkpoints for steps 3, 1 and
2, the step-1 checkpoint is restored. -/
theorem restore_loads_smallest_step_witness :
    ∃ m, m ∈ ([3, 1, 2] : List Nat) ∧ (∀ s ∈ ([3, 1, 2] : List Nat), m ≤ s) ∧
      restoreCheckpoint (([3, 1, 2] : List Nat).map mkName) =
        .ok (m : Int) (some (mkName m)) :=
  restore_loads_smallest_step [3, 1, 2] (by decide) (by decide) (by decide)

/-- C8: when no listing entry ends in `.pt`, `restore_checkpoint`
returns step 0 and loads nothing (no `load_state_dict` call). -/
theorem restore_empty_dir (listing : List (List Char))
    (h : ∀ f ∈ listing, pyEndsWith ".pt".toList f = false) :
    restoreCheckpoint listing = .ok 0 none := by
  have hf : listing.filter (fun f => pyEndsWith ".pt".toList f) = [] := by
    rw [List.filter_eq_nil_iff]
    intro f hf
    simpa using h f hf
  simp only [restoreCheckpoint, hf]
  rfl

/-- C8 witness: a directory with only `notes.txt` restores to step 0
without loading. -/
theorem restore_empty_dir_witness :
    restoreCheckpoint ["notes.txt".toList] = .ok 0 none :=
  restore_empty_dir ["notes.txt".toList] (by decide)

/-- C1: the filename written by `save_model` has a doubled dot
(`fmt_fname` inserts a `.` although the passed extension `.pt` already
starts with one), so the parse in `restore_checkpoint` hits
`int('00000.')` and raises `ValueError` instead of recovering the
step: the round-trip fails even at step 0. -/
theorem saveModel_name_unparseable :
    saveModelBasename 0 = "model-00000..pt".toList ∧
    pyEndsWith ".pt".toList (saveModelBasename 0) = true ∧
    parseStep (saveModelBasename 0) = none ∧
    restoreCheckpoint [saveModelBasename 0] = .error := by
  decide

/-- C10: on a directory whose only (hence sorted-first) `.pt` file is
`model.pt`, which has no `-`-separated step segment, the parse raises
(IndexError on `split('-')[1]`), modelled as the error outcome. -/
theorem restore_malformed_name_errors :
    pyEndsWith ".pt".toList "model.pt".toList = true ∧
    restoreCheckpoint ["model.pt".toList] = .error := by
  decide

/-- C4: in an inner iteration of the training loop, a model checkpoint
file is written iff `step` is a multiple of `save_steps`, and a sample
images file is written iff `step` is a multiple of `log_steps`; at all
other steps neither file is written. -/
theorem periodic_checkpointing (logSteps saveSteps step : Nat)
    (hl : 0 < logSteps) (hs : 0 < saveSteps) :
    ((iterEvents logSteps saveSteps step).any isSaveModel = true ↔
      step % saveSteps = 0) ∧
    ((iterEvents logSteps saveSteps step).any isSaveImages = true ↔
      step % logSteps = 0) := by
  constructor <;>
  · by_cases h1 : step % logSteps = 0 <;> by_cases h2 : step % saveSteps = 0 <;>
      simp [iterEvents, isSaveModel, isSaveImages, h1, h2]

/-- C4 witness: with `log_steps = 2` and `save_steps = 3`, step 6 writes
both files. -/
theorem periodic_checkpointing_witness :
    (((iterEvents 2 3 6).any isSaveModel = true) ↔ (6 % 3 = 0)) ∧
    (((iterEvents 2 3 6).any isSaveImages = true) ↔ (6 % 2 = 0)) :=
  periodic_checkpointing 2 3 6 (by decide) (by decide)

/-- C6: the only backward pass of an iteration backpropagates the L1
loss of the generator output on the input batch against the target
batch, and `zero_grad` (position 0) precedes it (position 1). -/
theorem backprop_l1_after_zero_grad (logSteps saveSteps step : Nat) :
    (iterEvents logSteps saveSteps step).filter isBackward =
      [.backward (.l1Loss (.genForward .inputBatch) .targetBatch)] ∧
    (iterEvents logSteps saveSteps step).get? 0 = some .zeroGrad ∧
    (iterEvents logSteps saveSteps step).get? 1 =
      some (.backward (.l1Loss (.genForward .inputBatch) .targetBatch)) := by
  refine ⟨?_, rfl, rfl⟩
  by_cases h1 : step % logSteps = 0 <;> by_cases h2 : step % saveSteps = 0 <;>
    simp [iterEvents, isBackward, lossExpr, h1, h2]

/-- C7: the `while True` loop guard is constantly true and `step`
increases by exactly one every inner iteration, hence is strictly
monotone over the run. -/
theorem training_loop_runs_forever (s0 : Nat) :
    loopGuard = true ∧ (∀ n, runStep s0 (n + 1) = runStep s0 n + 1) ∧
    StrictMono (runStep s0) := by
  have hsucc : ∀ n, runStep s0 (n + 1) = runStep s0 n + 1 := by
    intro n
    rw [runStep, runStep, Function.iterate_succ_apply']
    rfl
  exact ⟨rfl, hsucc,
    strictMono_nat_of_lt_succ fun n => by rw [hsucc n]; omega⟩

/-- C5: `NIFTI.__init__` stores exactly the joined paths of the listing
entries ending in `.nii` or `.nii.gz`, in sorted order, and `__len__`
is the number of such entries. -/
theorem nifti_dataset_spec (root : List Char) (listing : List (List Char)) :
    (∀ x, x ∈ NIFTI_filenames root listing ↔
      ∃ f, f ∈ listing ∧
        (pyEndsWith ".nii".toList f || pyEndsWith ".nii.gz".toList f) = true ∧
        x = pathJoin root f) ∧
    List.Sorted pyStrLe (NIFTI_filenames root listing) ∧
    NIFTI_len root listing = (listing.filter is_nifti).length := by
  refine ⟨?_, List.sorted_insertionSort pyStrLe _, ?_⟩
  · intro x
    unfold NIFTI_filenames pySort
    rw [List.mem_insertionSort]
    simp only [List.mem_map, List.mem_filter]
    constructor
    · rintro ⟨f, ⟨hfl, hfn⟩, rfl⟩
      exact ⟨f, hfl, hfn, rfl⟩
    · rintro ⟨f, hfl, hfn, rfl⟩
      exact ⟨f, ⟨hfl, hfn⟩, rfl⟩
  · unfold NIFTI_len NIFTI_filenames pySort
    rw [List.length_insertionSort, List.length_map]

/-- C9: with no transform, `NIFTI.__getitem__` returns the volume with
axes reversed and then flipped along axis 0 and axis 1, in that order;
a given transform is applied to this reoriented volume. -/
theorem getitem_reorients {α : Type} (v : Vol3 α) :
    ((nifti_getitem v none).n0 = v.n2 ∧
     (nifti_getitem v none).n1 = v.n1 ∧
     (nifti_getitem v none).n2 = v.n0) ∧
    (∀ i j k, (nifti_getitem v none).el i j k =
      v.el k (v.n1 - 1 - j) (v.n2 - 1 - i)) ∧
    nifti_getitem v none = npFlip1 (npFlip0 (npTranspose v)) ∧
    (∀ t, nifti_getitem v (some t) =
      t (npFlip1 (npFlip0 (npTranspose v)))) :=
  ⟨⟨rfl, rfl, rfl⟩, fun _ _ _ => rfl, rfl, fun _ => rfl⟩

/-- C3: `train.py` line 13 requests `HDF5` and `Combined` from
`mrtoct.dataset`, but that module binds only `is_nifti` and `NIFTI`;
the `from ... import` therefore raises `ImportError`, before any
dataset is constructed. -/
theorem train_dataset_classes_missing :
    ¬("HDF5" ∈ datasetModuleDefs) ∧ ¬("Combined" ∈ datasetModuleDefs) ∧
    pyFromImportOk datasetModuleDefs trainDatasetRequest = false := by
  decide
